import Mathlib

/-
Verification development for the DeadCode elimination pass
(src/src/passes/DeadCode.cpp).

The IR data model is a shallow embedding: instructions carry an id (the
model of the object's address), a kind tag, and a list of operand Values.
Operand references to other instructions are by id; dereferencing an
operand pointer is modelled by looking the id up among the function's
instructions.  Use-lists are derived from the graph (the IR invariant says
a Value's use-list is exactly the set of operand edges pointing at it), so
`remove_all_operands` followed by `erase_instr` is modelled simply by
deleting the instruction from its block.
-/

set_option maxHeartbeats 1600000

namespace DCE

/-- A Value usable as an operand: an instruction result (referenced by the
instruction's id), a function (the model carries the name and the
is_declaration flag of the pointed-to Function object), a global variable,
a constant, or a formal parameter. -/
inductive Value where
  | inst (id : Nat)
  | func (name : String) (isDecl : Bool)
  | glob (name : String)
  | const (n : Int)
  | param (idx : Nat)
deriving DecidableEq

/-- Instruction kind tags relevant to the pass. -/
inductive InstKind where
  | ret
  | br
  | store
  | call
  | other
deriving DecidableEq

/-- An instruction: id (models the object address), kind, ordered operands. -/
structure Inst where
  id : Nat
  kind : InstKind
  operands : List Value
deriving DecidableEq

/-- Terminators are returns and branches (lightir is_terminator). -/
def Inst.isTerminator (i : Inst) : Bool :=
  decide (i.kind = InstKind.ret) || decide (i.kind = InstKind.br)

/-- A basic block: id (models the address), stored predecessor set,
ordered instruction sequence. -/
structure BasicBlock where
  id : Nat
  preds : List Nat
  insts : List Inst
deriving DecidableEq

/-- A block is terminated when its last instruction is a terminator. -/
def BasicBlock.is_terminated (bb : BasicBlock) : Bool :=
  match bb.insts.getLast? with
  | some i => i.isTerminator
  | none => false

/-- A function: name, is_declaration flag, id of the entry block, blocks. -/
structure Function where
  name : String
  isDecl : Bool
  entry : Nat
  blocks : List BasicBlock
deriving DecidableEq

/-- A global variable (only its identity matters to this pass). -/
structure GlobalVariable where
  name : String
deriving DecidableEq

/-- A module owns functions and global variables. -/
structure Module where
  functions : List Function
  globals : List GlobalVariable
deriving DecidableEq

/-- All instructions of a function, in block order. -/
def Function.insts (f : Function) : List Inst :=
  f.blocks.foldr (fun bb acc => bb.insts ++ acc) []

/-- Dereference an instruction-operand id inside a function. -/
def findInst (f : Function) (j : Nat) : Option Inst :=
  f.insts.find? (fun x => decide (x.id = j))

/-- The instruction operands of an instruction (dynamic_cast<Instruction*>
succeeds exactly on Value.inst operands; constants, globals and parameters
are excluded). -/
def succs (f : Function) (i : Inst) : List Inst :=
  i.operands.filterMap (fun v =>
    match v with
    | Value.inst j => findInst f j
    | _ => none)

/-- Does any instruction of the module have an operand satisfying p? -/
def Module.usesVal (m : Module) (p : Value → Bool) : Bool :=
  m.functions.any fun f =>
    f.blocks.any fun bb =>
      bb.insts.any fun ins => ins.operands.any p

/-- Derived use-list non-emptiness of an instruction. -/
def hasUses (m : Module) (i : Inst) : Bool :=
  m.usesVal (fun v => decide (v = Value.inst i.id))

/-- The call-specific part of DeadCode::is_critical: operand 0 resolves to
a Function that is a declaration or that the purity oracle does not report
pure.  A non-Function operand 0 yields false (the dynamic_cast fails and
the code falls through). -/
def callee_critical (pf : String → Bool) (ins : Inst) : Bool :=
  match ins.operands.head? with
  | some (Value.func n d) => d || !(pf n)
  | _ => false

/-- DeadCode::is_critical: ret, br, store, calls to declarations or impure
defined callees, and instructions with a non-empty use-list. -/
def is_critical (m : Module) (pf : String → Bool) (ins : Inst) : Bool :=
  if ins.kind = InstKind.ret then true
  else if ins.kind = InstKind.br then true
  else if ins.kind = InstKind.store then true
  else if decide (ins.kind = InstKind.call) && callee_critical pf ins then true
  else hasUses m ins

/-- The critical seed set collected by the first loop of
DeadCode::mark(Function*), in block order. -/
def critical_seeds (m : Module) (pf : String → Bool) (f : Function) : List Inst :=
  f.insts.filter (fun i => is_critical m pf i)

/-- Number of instructions of f not yet marked (termination/fuel measure). -/
def unmarkedCount (f : Function) (marked : List Inst) : Nat :=
  (f.insts.filter (fun i => !(decide (i ∈ marked)))).length

/-- Largest operand count among f's instructions. -/
def maxOps (f : Function) : Nat :=
  f.insts.foldr (fun i a => max i.operands.length a) 0

/-- The worklist loop of DeadCode::mark(Function*): pop the front, skip if
already marked, otherwise mark it and push its unmarked instruction
operands to the back.  Fuel-indexed; `markFuel` below always suffices. -/
def markLoop (f : Function) : Nat → List Inst → List Inst → List Inst
  | 0, marked, _ => marked
  | _ + 1, marked, [] => marked
  | fuel + 1, marked, i :: rest =>
    if i ∈ marked then markLoop f fuel marked rest
    else
      markLoop f fuel (i :: marked)
        (rest ++ (succs f i).filter (fun s => !(decide (s ∈ i :: marked))))

/-- Fuel that provably lets markLoop run to an empty worklist. -/
def markFuel (f : Function) : Nat :=
  f.insts.length + f.insts.length * (1 + maxOps f) + 1

/-- Fuel-measure of a markLoop state. -/
def markMeasure (f : Function) (marked wl : List Inst) : Nat :=
  wl.length + unmarkedCount f marked * (1 + maxOps f)

/-- DeadCode::mark(Function*): seed with the critical instructions, then
run the worklist to a fixpoint; returns the marked (live) set. -/
def mark (m : Module) (pf : String → Bool) (f : Function) : List Inst :=
  markLoop f (markFuel f) [] (critical_seeds m pf f)

/-- DeadCode::mark(Instruction*): recursive marking.  Returns immediately
on an already-marked instruction, otherwise marks it and recurses into its
instruction operands in order.  Fuel bounds the recursion depth;
f.insts.length + 1 always suffices starting from any marked set. -/
def markInst (f : Function) : Nat → List Inst → Inst → List Inst
  | 0, marked, _ => marked
  | fuel + 1, marked, i =>
    if i ∈ marked then marked
    else (succs f i).foldl (fun acc s => markInst f fuel acc s) (i :: marked)

/-- Sequential application of markInst to a list (shared marked set). -/
def markInstList (f : Function) (fuel : Nat) (marked : List Inst)
    (l : List Inst) : List Inst :=
  l.foldl (fun acc s => markInst f fuel acc s) marked

/-- The recursive marker applied from an empty marked set to each critical
seed in order. -/
def markRecTop (m : Module) (pf : String → Bool) (f : Function) : List Inst :=
  markInstList f (f.insts.length + 1) [] (critical_seeds m pf f)

/-- An instruction survives the sweep of its block iff it is a terminator
or it is in the live set. -/
def keepInst (live : List Inst) (i : Inst) : Bool :=
  i.isTerminator || decide (i ∈ live)

/-- Per-block effect of DeadCode::sweep: empty blocks and blocks without a
terminator are left untouched; otherwise the unmarked non-terminator
instructions are removed. -/
def sweepBlock (live : List Inst) (bb : BasicBlock) : BasicBlock :=
  if bb.insts.isEmpty then bb
  else if !bb.is_terminated then bb
  else { bb with insts := bb.insts.filter (keepInst live) }

/-- The instructions of bb collected into the removal batch. -/
def sweepBlockDel (live : List Inst) (bb : BasicBlock) : List Inst :=
  if bb.insts.isEmpty then []
  else if !bb.is_terminated then []
  else bb.insts.filter (fun i => !(keepInst live i))

/-- The whole removal batch (wait_del) of DeadCode::sweep. -/
def waitDel (live : List Inst) (f : Function) : List Inst :=
  f.blocks.foldr (fun bb acc => sweepBlockDel live bb ++ acc) []

/-- DeadCode::sweep: batch-collect the unmarked non-terminator
instructions of terminated blocks, delete them, report (new function,
changed flag, number of erased instructions). -/
def sweep (live : List Inst) (f : Function) : Function × Bool × Nat :=
  ({ f with blocks := f.blocks.map (sweepBlock live) },
    !(waitDel live f).isEmpty, (waitDel live f).length)

/-- A block the collector loop of DeadCode::clear_basic_blocks pushes to
to_erase: no predecessors, not the entry block, and empty. -/
def eligibleEmpty (f : Function) (bb : BasicBlock) : Bool :=
  bb.preds.isEmpty && decide (bb.id ≠ f.entry) && bb.insts.isEmpty

/-- DeadCode::clear_basic_blocks: erase the predecessor-less, non-entry,
empty blocks; return (new function, whether any block was erased). -/
def clear_basic_blocks (f : Function) : Function × Bool :=
  ({ f with blocks := f.blocks.filter (fun bb => !(eligibleEmpty f bb)) },
    !(f.blocks.filter (eligibleEmpty f)).isEmpty)

/-- One pass of the body of the do-while loop of DeadCode::run over the
function list: for each non-declaration function (in order, against the
current state of the module) run mark, sweep, clear_basic_blocks.
Accumulates the processed functions, the changed flag and ins_count. -/
def stepFns (pf : String → Bool) (g : List GlobalVariable) :
    List Function → List Function → Bool → Nat → List Function × Bool × Nat
  | done, [], ch, cnt => (done, ch, cnt)
  | done, f :: rest, ch, cnt =>
    if f.isDecl then stepFns pf g (done ++ [f]) rest ch cnt
    else
      stepFns pf g
        (done ++ [(clear_basic_blocks
          (sweep (mark ⟨done ++ f :: rest, g⟩ pf f) f).1).1])
        rest
        (ch || (sweep (mark ⟨done ++ f :: rest, g⟩ pf f) f).2.1
            || (clear_basic_blocks
                  (sweep (mark ⟨done ++ f :: rest, g⟩ pf f) f).1).2)
        (cnt + (sweep (mark ⟨done ++ f :: rest, g⟩ pf f) f).2.2)

/-- One full iteration of the do-while loop in DeadCode::run. -/
def step (pf : String → Bool) (m : Module) : Module × Bool × Nat :=
  (⟨(stepFns pf m.globals [] m.functions false 0).1, m.globals⟩,
    (stepFns pf m.globals [] m.functions false 0).2.1,
    (stepFns pf m.globals [] m.functions false 0).2.2)

/-- Number of instructions plus number of blocks of a function. -/
def Function.size (f : Function) : Nat :=
  f.blocks.foldr (fun bb a => bb.insts.length + a) 0 + f.blocks.length

/-- Total size of a list of functions. -/
def sizeL (l : List Function) : Nat :=
  l.foldr (fun f a => f.size + a) 0

/-- Total size of a module. -/
def Module.size (m : Module) : Nat := sizeL m.functions

/-- The do-while loop of DeadCode::run, fuel-indexed.  Each changed
iteration strictly shrinks the module, so `Module.size m + 1` fuel always
reaches the fixpoint (proved below). -/
def runAux (pf : String → Bool) : Nat → Module → Nat → Module × Nat
  | 0, m, cnt => (m, cnt)
  | fuel + 1, m, cnt =>
    if (step pf m).2.1
      then runAux pf fuel (step pf m).1 (cnt + (step pf m).2.2)
      else ((step pf m).1, cnt + (step pf m).2.2)

/-- DeadCode::run on a module, threading the ins_count member (which run
never resets): returns the transformed module and the final ins_count. -/
def run (pf : String → Bool) (m : Module) (cnt : Nat) : Module × Nat :=
  runAux pf (m.size + 1) m cnt

/-- Is the function named `name` referenced by any instruction operand? -/
def funcUsed (m : Module) (name : String) : Bool :=
  m.usesVal (fun v =>
    match v with
    | Value.func n _ => decide (n = name)
    | _ => false)

/-- Is the global named `name` referenced by any instruction operand? -/
def globUsed (m : Module) (name : String) : Bool :=
  m.usesVal (fun v =>
    match v with
    | Value.glob n => decide (n = name)
    | _ => false)

/-- DeadCode::sweep_globally: collect the functions with empty use-list
not named "main" and the globals with empty use-list, all against the
incoming module state, then erase them. -/
def sweep_globally (m : Module) : Module :=
  let unusedF := m.functions.filter
    (fun f => !(funcUsed m f.name) && decide (f.name ≠ "main"))
  let unusedG := m.globals.filter (fun g => !(globUsed m g.name))
  ⟨m.functions.filter (fun f => !(decide (f ∈ unusedF))),
   m.globals.filter (fun g => !(decide (g ∈ unusedG)))⟩

/-- Backward reachability along operand edges: ReachOp f c i holds when i
is c itself or is reachable from c by repeatedly stepping to instruction
operands. -/
inductive ReachOp (f : Function) : Inst → Inst → Prop where
  | refl (i : Inst) : ReachOp f i i
  | tail {a b c : Inst} : ReachOp f a b → c ∈ succs f b → ReachOp f a c

/-- A purity oracle reporting nothing as pure. -/
def pfNone : String → Bool := fun _ => false

/-- A lone side-effect-free instruction with no uses. -/
def exBadInst : Inst := ⟨1, InstKind.other, []⟩

/-- A non-empty block with no terminator (malformed IR). -/
def exBadBB : BasicBlock := ⟨0, [], [exBadInst]⟩

/-- A function whose only block is malformed. -/
def exBadFn : Function := ⟨"h", false, 0, [exBadBB]⟩

/-- A module containing only exBadFn. -/
def exBadModule : Module := ⟨[exBadFn], []⟩

/-- A return instruction. -/
def exRetInst : Inst := ⟨1, InstKind.ret, []⟩

/-- A well-formed single-block function: just a return. -/
def exRetBB : BasicBlock := ⟨0, [], [exRetInst]⟩

/-- Function wrapping exRetBB. -/
def exRetFn : Function := ⟨"f", false, 0, [exRetBB]⟩

/-- Module wrapping exRetFn. -/
def exRetModule : Module := ⟨[exRetFn], []⟩

/-- A block holding a dead add followed by a return. -/
def exSweepBB : BasicBlock := ⟨0, [], [⟨1, InstKind.other, []⟩, ⟨2, InstKind.ret, []⟩]⟩

/-- Function wrapping exSweepBB. -/
def exSweepFn : Function := ⟨"s", false, 0, [exSweepBB]⟩

/-- A call whose callee operand is a constant, not a Function. -/
def exCallConst : Inst := ⟨1, InstKind.call, [Value.const 0]⟩

/-- Function holding exCallConst and a return. -/
def exCallConstFn : Function :=
  ⟨"k2", false, 0, [⟨0, [], [exCallConst, ⟨2, InstKind.ret, []⟩]⟩]⟩

/-- Module wrapping exCallConstFn. -/
def exCallConstModule : Module := ⟨[exCallConstFn], []⟩

/-- A call to a declared (bodyless) function. -/
def exCallDecl : Inst := ⟨1, InstKind.call, [Value.func "input" true]⟩

/-- Module holding a function that calls the declaration "input". -/
def exCallDeclModule : Module :=
  ⟨[⟨"k", false, 0, [⟨0, [], [exCallDecl, ⟨2, InstKind.ret, []⟩]⟩]⟩], []⟩

end DCE

namespace DCE

/-- Membership in a foldr of list appends. -/
theorem mem_foldrAppend {α β : Type} (g : α → List β) (l : List α) (x : β) :
    x ∈ l.foldr (fun a acc => g a ++ acc) [] ↔ ∃ a ∈ l, x ∈ g a := by
  induction l with
  | nil => simp
  | cons h t ih => simp [List.mem_append, ih]

/-- A foldr of list appends is empty iff every piece is empty. -/
theorem foldrAppend_eq_nil {α β : Type} (g : α → List β) (l : List α) :
    l.foldr (fun a acc => g a ++ acc) [] = [] ↔ ∀ a ∈ l, g a = [] := by
  induction l with
  | nil => simp
  | cons h t ih => simp [ih]

/-- An instruction is in f.insts iff it is in one of f's blocks. -/
theorem mem_insts (f : Function) (i : Inst) :
    i ∈ f.insts ↔ ∃ bb ∈ f.blocks, i ∈ bb.insts :=
  mem_foldrAppend _ _ _

/-- Lengths of a filter and its complement add up to the whole. -/
theorem length_filter_add_not {α : Type} (p : α → Bool) (l : List α) :
    (l.filter p).length + (l.filter (fun a => !p a)).length = l.length := by
  induction l with
  | nil => rfl
  | cons h t ih => cases hp : p h <;> simp [List.filter_cons, hp] <;> omega

/-- Filtering by a stronger predicate yields a shorter list. -/
theorem length_filter_mono {α : Type} (p q : α → Bool) (l : List α)
    (h : ∀ a ∈ l, q a = true → p a = true) :
    (l.filter q).length ≤ (l.filter p).length := by
  induction l with
  | nil => simp
  | cons x t ih =>
    have ht : (t.filter q).length ≤ (t.filter p).length :=
      ih (fun a ha => h a (List.mem_cons_of_mem _ ha))
    cases hq : q x with
    | true =>
      have hp := h x (List.mem_cons_self _ _) hq
      simp [List.filter_cons, hq, hp]; omega
    | false =>
      cases hp : p x <;> simp [List.filter_cons, hq, hp] <;> omega

/-- Filtering by a strictly stronger predicate (witnessed at a member)
yields a strictly shorter list. -/
theorem length_filter_lt {α : Type} (p q : α → Bool) (l : List α) (a : α)
    (himp : ∀ x ∈ l, q x = true → p x = true) (ha : a ∈ l)
    (hpa : p a = true) (hqa : q a = false) :
    (l.filter q).length < (l.filter p).length := by
  induction l with
  | nil => cases ha
  | cons x t ih =>
    have ht : (t.filter q).length ≤ (t.filter p).length :=
      length_filter_mono p q t (fun y hy => himp y (List.mem_cons_of_mem _ hy))
    rcases List.mem_cons.mp ha with rfl | hat
    · simp [List.filter_cons, hpa, hqa]; omega
    · have ht' : (t.filter q).length < (t.filter p).length :=
        ih (fun y hy => himp y (List.mem_cons_of_mem _ hy)) hat
      cases hq : q x with
      | true =>
        have hp := himp x (List.mem_cons_self _ _) hq
        simp [List.filter_cons, hq, hp]; omega
      | false => cases hp : p x <;> simp [List.filter_cons, hq, hp] <;> omega

/-- Marking one more instruction of f strictly shrinks the unmarked count. -/
theorem unmarkedCount_lt_of_insert (f : Function) (marked : List Inst) (i : Inst)
    (hi : i ∈ f.insts) (hm : i ∉ marked) :
    unmarkedCount f (i :: marked) < unmarkedCount f marked := by
  refine length_filter_lt _ _ _ i ?_ hi ?_ ?_
  · intro x _ hx
    simp only [Bool.not_eq_true', decide_eq_false_iff_not, List.mem_cons] at hx ⊢
    exact fun hxm => hx (Or.inr hxm)
  · simpa using hm
  · simp

/-- Growing the marked set cannot grow the unmarked count. -/
theorem unmarkedCount_le_of_subset (f : Function) (m1 m2 : List Inst)
    (h : m1 ⊆ m2) : unmarkedCount f m2 ≤ unmarkedCount f m1 := by
  refine length_filter_mono _ _ _ ?_
  intro a _ hx
  simp only [Bool.not_eq_true', decide_eq_false_iff_not] at hx ⊢
  exact fun hm => hx (h hm)

/-- The unmarked count is at most the instruction count. -/
theorem unmarkedCount_le (f : Function) (marked : List Inst) :
    unmarkedCount f marked ≤ f.insts.length :=
  List.length_filter_le _ _

/-- Instruction operands resolved by succs are instructions of f. -/
theorem succs_mem_insts {f : Function} {i s : Inst} (h : s ∈ succs f i) :
    s ∈ f.insts := by
  simp only [succs, List.mem_filterMap] at h
  obtain ⟨v, _, hv⟩ := h
  cases v <;> simp at hv
  exact List.mem_of_find?_eq_some hv

/-- succs never exceeds the operand count. -/
theorem succs_length_le (f : Function) (i : Inst) :
    (succs f i).length ≤ i.operands.length :=
  List.length_filterMap_le _ _

/-- Foldr-max of operand counts bounds each member's operand count. -/
theorem foldr_max_bound (l : List Inst) {i : Inst} (h : i ∈ l) :
    i.operands.length ≤ l.foldr (fun x a => max x.operands.length a) 0 := by
  induction l with
  | nil => cases h
  | cons x t ih =>
    rcases List.mem_cons.mp h with rfl | ht
    · exact le_max_left _ _
    · exact (ih ht).trans (le_max_right _ _)

/-- Every instruction of f has at most maxOps f operands. -/
theorem maxOps_bound {f : Function} {i : Inst} (h : i ∈ f.insts) :
    i.operands.length ≤ maxOps f :=
  foldr_max_bound _ h

/-- ReachOp is transitive. -/
theorem ReachOp.trans {f : Function} {a b c : Inst}
    (h1 : ReachOp f a b) (h2 : ReachOp f b c) : ReachOp f a c := by
  induction h2 with
  | refl => exact h1
  | tail _ hedge ih => exact ReachOp.tail ih hedge

/-- Everything reachable from a member of a succs-closed set stays inside. -/
theorem reach_mem_of_closed {f : Function} {S : List Inst}
    (hclosed : ∀ j ∈ S, ∀ s ∈ succs f j, s ∈ S) {c j : Inst}
    (hc : c ∈ S) (hr : ReachOp f c j) : j ∈ S := by
  induction hr with
  | refl => exact hc
  | tail _ hedge ih => exact hclosed _ ih _ hedge

/-- Terminators are critical (rules 1 and 2 of is_critical). -/
theorem terminator_critical {i : Inst} (h : i.isTerminator = true)
    (m : Module) (pf : String → Bool) : is_critical m pf i = true := by
  simp only [Inst.isTerminator, Bool.or_eq_true, decide_eq_true_eq] at h
  rcases h with h | h <;> simp [is_critical, h]

/-- markLoop only ever adds to the marked set. -/
theorem markLoop_mono (f : Function) :
    ∀ fuel marked wl, marked ⊆ markLoop f fuel marked wl := by
  intro fuel
  induction fuel with
  | zero => intro marked wl; simp [markLoop]
  | succ n ih =>
    intro marked wl
    cases wl with
    | nil => simp [markLoop]
    | cons i rest =>
      rw [markLoop]
      split
      · exact ih marked rest
      · exact (List.subset_cons_self i marked).trans (ih _ _)

/-- Everything markLoop marks beyond the input set is reachable from a
worklist element. -/
theorem markLoop_sound (f : Function) :
    ∀ fuel marked wl j, j ∈ markLoop f fuel marked wl →
      j ∈ marked ∨ ∃ w ∈ wl, ReachOp f w j := by
  intro fuel
  induction fuel with
  | zero => intro marked wl j hj; rw [markLoop] at hj; exact Or.inl hj
  | succ n ih =>
    intro marked wl j hj
    cases wl with
    | nil => rw [markLoop] at hj; exact Or.inl hj
    | cons i rest =>
      rw [markLoop] at hj
      split at hj
      · rcases ih _ _ _ hj with h | ⟨w, hw, hr⟩
        · exact Or.inl h
        · exact Or.inr ⟨w, List.mem_cons_of_mem _ hw, hr⟩
      · rcases ih _ _ _ hj with h | ⟨w, hw, hr⟩
        · rcases List.mem_cons.mp h with rfl | h
          · exact Or.inr ⟨j, List.mem_cons_self _ _, ReachOp.refl j⟩
          · exact Or.inl h
        · rcases List.mem_append.mp hw with hw | hw
          · exact Or.inr ⟨w, List.mem_cons_of_mem _ hw, hr⟩
          · have hsw : w ∈ succs f i := (List.mem_filter.mp hw).1
            exact Or.inr ⟨i, List.mem_cons_self _ _,
              ReachOp.trans (ReachOp.tail (ReachOp.refl i) hsw) hr⟩

/-- Fuel-measure bookkeeping for the marking step of markLoop. -/
theorem markMeasure_step (f : Function) (marked rest : List Inst) (i : Inst)
    (hi : i ∈ f.insts) (hm : i ∉ marked) :
    markMeasure f (i :: marked)
        (rest ++ (succs f i).filter (fun s => !(decide (s ∈ i :: marked)))) + 2
      ≤ markMeasure f marked (i :: rest) := by
  have hu : unmarkedCount f (i :: marked) < unmarkedCount f marked :=
    unmarkedCount_lt_of_insert f marked i hi hm
  have hsl : ((succs f i).filter (fun s => !(decide (s ∈ i :: marked)))).length
      ≤ maxOps f :=
    le_trans (List.length_filter_le _ _) ((succs_length_le f i).trans (maxOps_bound hi))
  have hmul : unmarkedCount f (i :: marked) * (1 + maxOps f) + (1 + maxOps f)
      ≤ unmarkedCount f marked * (1 + maxOps f) := by
    have : (unmarkedCount f (i :: marked) + 1) * (1 + maxOps f)
        ≤ unmarkedCount f marked * (1 + maxOps f) :=
      Nat.mul_le_mul_right _ hu
    calc unmarkedCount f (i :: marked) * (1 + maxOps f) + (1 + maxOps f)
        = (unmarkedCount f (i :: marked) + 1) * (1 + maxOps f) := by ring
      _ ≤ unmarkedCount f marked * (1 + maxOps f) := this
  simp only [markMeasure, List.length_append, List.length_cons]
  omega

/-- With enough fuel, every worklist element ends up marked. -/
theorem markLoop_complete (f : Function) :
    ∀ fuel marked wl, (∀ x ∈ wl, x ∈ f.insts) →
      markMeasure f marked wl < fuel →
      ∀ w ∈ wl, w ∈ markLoop f fuel marked wl := by
  intro fuel
  induction fuel with
  | zero => intro marked wl _ hfuel; omega
  | succ n ih =>
    intro marked wl hwl hfuel
    cases wl with
    | nil => intro w hw; cases hw
    | cons i rest =>
      intro w hw
      rw [markLoop]
      split
      · rename_i hmem
        have hrest : markMeasure f marked rest < n := by
          simp only [markMeasure, List.length_cons] at hfuel ⊢; omega
        rcases List.mem_cons.mp hw with rfl | hw
        · exact markLoop_mono f n marked rest hmem
        · exact ih marked rest (fun x hx => hwl x (List.mem_cons_of_mem _ hx)) hrest w hw
      · rename_i hmem
        have hstep := markMeasure_step f marked rest i (hwl i (List.mem_cons_self _ _)) hmem
        have hfuel' : markMeasure f (i :: marked)
            (rest ++ (succs f i).filter (fun s => !(decide (s ∈ i :: marked)))) < n := by
          omega
        have hwl' : ∀ x ∈ rest ++ (succs f i).filter
            (fun s => !(decide (s ∈ i :: marked))), x ∈ f.insts := by
          intro x hx
          rcases List.mem_append.mp hx with hx | hx
          · exact hwl x (List.mem_cons_of_mem _ hx)
          · exact succs_mem_insts (List.mem_filter.mp hx).1
        rcases List.mem_cons.mp hw with rfl | hw
        · exact markLoop_mono f n _ _ (List.mem_cons_self _ _)
        · exact ih _ _ hwl' hfuel' w (List.mem_append.mpr (Or.inl hw))

/-- With enough fuel, the final marked set is closed under succs, provided
the incoming marked set is closed up to pending worklist items. -/
theorem markLoop_closed (f : Function) :
    ∀ fuel marked wl, (∀ x ∈ wl, x ∈ f.insts) →
      markMeasure f marked wl < fuel →
      (∀ j ∈ marked, ∀ s ∈ succs f j, s ∈ marked ∨ s ∈ wl) →
      ∀ j ∈ markLoop f fuel marked wl, ∀ s ∈ succs f j,
        s ∈ markLoop f fuel marked wl := by
  intro fuel
  induction fuel with
  | zero => intro marked wl _ hfuel; omega
  | succ n ih =>
    intro marked wl hwl hfuel hcl
    cases wl with
    | nil =>
      intro j hj s hs
      rw [markLoop] at hj ⊢
      rcases hcl j hj s hs with h | h
      · exact h
      · cases h
    | cons i rest =>
      by_cases hmem : i ∈ marked
      · have heq : markLoop f (n + 1) marked (i :: rest) = markLoop f n marked rest := by
          rw [markLoop]; simp [hmem]
        rw [heq]
        refine ih marked rest (fun x hx => hwl x (List.mem_cons_of_mem _ hx)) ?_ ?_
        · simp only [markMeasure, List.length_cons] at hfuel ⊢; omega
        · intro j hj s hs
          rcases hcl j hj s hs with h | h
          · exact Or.inl h
          · rcases List.mem_cons.mp h with rfl | h
            · exact Or.inl hmem
            · exact Or.inr h
      · have heq : markLoop f (n + 1) marked (i :: rest)
            = markLoop f n (i :: marked)
                (rest ++ (succs f i).filter (fun s => !(decide (s ∈ i :: marked)))) := by
          rw [markLoop]; simp [hmem]
        rw [heq]
        have hstep := markMeasure_step f marked rest i (hwl i (List.mem_cons_self _ _)) hmem
        refine ih _ _ ?_ (by omega) ?_
        · intro x hx
          rcases List.mem_append.mp hx with hx | hx
          · exact hwl x (List.mem_cons_of_mem _ hx)
          · exact succs_mem_insts (List.mem_filter.mp hx).1
        · intro j hj s hs
          rcases List.mem_cons.mp hj with rfl | hj
          · by_cases hsm : s ∈ j :: marked
            · exact Or.inl hsm
            · exact Or.inr (List.mem_append.mpr (Or.inr
                (List.mem_filter.mpr ⟨hs, by simpa using hsm⟩)))
          · rcases hcl j hj s hs with h | h
            · exact Or.inl (List.mem_cons_of_mem _ h)
            · rcases List.mem_cons.mp h with rfl | h
              · exact Or.inl (List.mem_cons_self _ _)
              · exact Or.inr (List.mem_append.mpr (Or.inl h))

/-- The critical seeds are instructions of f. -/
theorem critical_seeds_subset (m : Module) (pf : String → Bool) (f : Function) :
    ∀ x ∈ critical_seeds m pf f, x ∈ f.insts := by
  intro x hx; exact (List.mem_filter.mp hx).1

/-- A member of the seed list is exactly a critical instruction of f. -/
theorem mem_critical_seeds (m : Module) (pf : String → Bool) (f : Function)
    (c : Inst) :
    c ∈ critical_seeds m pf f ↔ c ∈ f.insts ∧ is_critical m pf c = true := by
  simp [critical_seeds, List.mem_filter]

/-- markFuel always dominates the initial fuel measure of mark. -/
theorem markFuel_ok (m : Module) (pf : String → Bool) (f : Function) :
    markMeasure f [] (critical_seeds m pf f) < markFuel f := by
  have h1 : (critical_seeds m pf f).length ≤ f.insts.length :=
    List.length_filter_le _ _
  have h2 : unmarkedCount f [] * (1 + maxOps f)
      ≤ f.insts.length * (1 + maxOps f) :=
    Nat.mul_le_mul_right _ (unmarkedCount_le f [])
  simp only [markMeasure, markFuel]
  omega

/-- Characterization of DeadCode::mark(Function*): the live set is exactly
the set of instructions reachable along operand edges from a critical
instruction (the critical instructions themselves included). -/
theorem mem_mark_iff (m : Module) (pf : String → Bool) (f : Function)
    (j : Inst) :
    j ∈ mark m pf f ↔
      ∃ c ∈ f.insts, is_critical m pf c = true ∧ ReachOp f c j := by
  constructor
  · intro hj
    rcases markLoop_sound f (markFuel f) [] (critical_seeds m pf f) j hj with
      h | ⟨w, hw, hr⟩
    · cases h
    · rcases (mem_critical_seeds m pf f w).mp hw with ⟨hwi, hwc⟩
      exact ⟨w, hwi, hwc, hr⟩
  · rintro ⟨c, hci, hcc, hr⟩
    have hc : c ∈ mark m pf f :=
      markLoop_complete f (markFuel f) [] (critical_seeds m pf f)
        (critical_seeds_subset m pf f) (markFuel_ok m pf f) c
        ((mem_critical_seeds m pf f c).mpr ⟨hci, hcc⟩)
    have hclosed : ∀ x ∈ mark m pf f, ∀ s ∈ succs f x, s ∈ mark m pf f :=
      markLoop_closed f (markFuel f) [] (critical_seeds m pf f)
        (critical_seeds_subset m pf f) (markFuel_ok m pf f)
        (fun j hj => by cases hj)
    exact reach_mem_of_closed hclosed hc hr

/-- Bundled correctness of markInstList given the same bundle for markInst
at the shared fuel. -/
theorem markInstList_spec_aux (f : Function) (fuel : Nat)
    (hrec : ∀ marked (i : Inst), i ∈ f.insts → unmarkedCount f marked < fuel →
      marked ⊆ markInst f fuel marked i ∧
      i ∈ markInst f fuel marked i ∧
      (∀ j ∈ markInst f fuel marked i, j ∈ marked ∨ ReachOp f i j) ∧
      (∀ E : List Inst,
        (∀ j ∈ marked, ∀ s ∈ succs f j, s ∈ marked ∨ s = i ∨ s ∈ E) →
        ∀ j ∈ markInst f fuel marked i, ∀ s ∈ succs f j,
          s ∈ markInst f fuel marked i ∨ s ∈ E)) :
    ∀ (l : List Inst) (marked : List Inst), (∀ x ∈ l, x ∈ f.insts) →
      unmarkedCount f marked < fuel →
      marked ⊆ markInstList f fuel marked l ∧
      (∀ x ∈ l, x ∈ markInstList f fuel marked l) ∧
      (∀ j ∈ markInstList f fuel marked l, j ∈ marked ∨ ∃ w ∈ l, ReachOp f w j) ∧
      (∀ E : List Inst,
        (∀ j ∈ marked, ∀ s ∈ succs f j, s ∈ marked ∨ s ∈ l ∨ s ∈ E) →
        ∀ j ∈ markInstList f fuel marked l, ∀ s ∈ succs f j,
          s ∈ markInstList f fuel marked l ∨ s ∈ E) := by
  intro l
  induction l with
  | nil =>
    intro marked _ _
    refine ⟨?_, ?_, ?_, ?_⟩
    · exact fun a ha => ha
    · intro x hx; cases hx
    · exact fun j hj => Or.inl hj
    · intro E hE j hj s hs
      rcases hE j hj s hs with h | h | h
      · exact Or.inl h
      · cases h
      · exact Or.inr h
  | cons x rest ih =>
    intro marked hl hu
    obtain ⟨h1, h2, h3, h4⟩ := hrec marked x (hl x (List.mem_cons_self _ _)) hu
    have hu1 : unmarkedCount f (markInst f fuel marked x) < fuel :=
      lt_of_le_of_lt (unmarkedCount_le_of_subset f marked _ h1) hu
    obtain ⟨g1, g2, g3, g4⟩ := ih (markInst f fuel marked x)
      (fun y hy => hl y (List.mem_cons_of_mem _ hy)) hu1
    have hrw : markInstList f fuel marked (x :: rest)
        = markInstList f fuel (markInst f fuel marked x) rest := rfl
    rw [hrw]
    refine ⟨h1.trans g1, ?_, ?_, ?_⟩
    · intro y hy
      rcases List.mem_cons.mp hy with rfl | hy
      · exact g1 h2
      · exact g2 y hy
    · intro j hj
      rcases g3 j hj with hj1 | ⟨w, hw, hr⟩
      · rcases h3 j hj1 with h | h
        · exact Or.inl h
        · exact Or.inr ⟨x, List.mem_cons_self _ _, h⟩
      · exact Or.inr ⟨w, List.mem_cons_of_mem _ hw, hr⟩
    · intro E hE
      have c1 := h4 (rest ++ E) (by
        intro j hj s hs
        rcases hE j hj s hs with h | h | h
        · exact Or.inl h
        · rcases List.mem_cons.mp h with rfl | h
          · exact Or.inr (Or.inl rfl)
          · exact Or.inr (Or.inr (List.mem_append.mpr (Or.inl h)))
        · exact Or.inr (Or.inr (List.mem_append.mpr (Or.inr h))))
      refine g4 E ?_
      intro j hj s hs
      rcases c1 j hj s hs with h | h
      · exact Or.inl h
      · rcases List.mem_append.mp h with h | h
        · exact Or.inr (Or.inl h)
        · exact Or.inr (Or.inr h)

/-- Bundled correctness of the recursive DeadCode::mark(Instruction*):
monotonicity, self-marking, soundness (everything new is reachable from
i), and closure relative to pending obligations. -/
theorem markInst_spec (f : Function) :
    ∀ fuel marked (i : Inst), i ∈ f.insts → unmarkedCount f marked < fuel →
      marked ⊆ markInst f fuel marked i ∧
      i ∈ markInst f fuel marked i ∧
      (∀ j ∈ markInst f fuel marked i, j ∈ marked ∨ ReachOp f i j) ∧
      (∀ E : List Inst,
        (∀ j ∈ marked, ∀ s ∈ succs f j, s ∈ marked ∨ s = i ∨ s ∈ E) →
        ∀ j ∈ markInst f fuel marked i, ∀ s ∈ succs f j,
          s ∈ markInst f fuel marked i ∨ s ∈ E) := by
  intro fuel
  induction fuel with
  | zero => intro marked i _ hu; omega
  | succ n ih =>
    intro marked i hi hu
    by_cases hm : i ∈ marked
    · have hR : markInst f (n + 1) marked i = marked := by
        rw [markInst]; simp [hm]
      rw [hR]
      refine ⟨fun a ha => ha, hm, fun j hj => Or.inl hj, ?_⟩
      intro E hE j hj s hs
      rcases hE j hj s hs with h | h | h
      · exact Or.inl h
      · exact Or.inl (h ▸ hm)
      · exact Or.inr h
    · have hR : markInst f (n + 1) marked i
          = markInstList f n (i :: marked) (succs f i) := by
        rw [markInst]; simp [hm]; rfl
      rw [hR]
      have hu' : unmarkedCount f (i :: marked) < n := by
        have := unmarkedCount_lt_of_insert f marked i hi hm
        omega
      obtain ⟨g1, g2, g3, g4⟩ := markInstList_spec_aux f n ih (succs f i)
        (i :: marked) (fun s hs => succs_mem_insts hs) hu'
      refine ⟨(List.subset_cons_self i marked).trans g1,
        g1 (List.mem_cons_self _ _), ?_, ?_⟩
      · intro j hj
        rcases g3 j hj with hj1 | ⟨w, hw, hr⟩
        · rcases List.mem_cons.mp hj1 with rfl | hj1
          · exact Or.inr (ReachOp.refl j)
          · exact Or.inl hj1
        · exact Or.inr (ReachOp.trans (ReachOp.tail (ReachOp.refl i) hw) hr)
      · intro E hE
        refine g4 E ?_
        intro j hj s hs
        rcases List.mem_cons.mp hj with rfl | hj
        · exact Or.inr (Or.inl hs)
        · rcases hE j hj s hs with h | h | h
          · exact Or.inl (List.mem_cons_of_mem _ h)
          · exact Or.inl (h ▸ List.mem_cons_self _ _)
          · exact Or.inr (Or.inr h)

/-- Characterization of the recursive marker applied to every critical
seed from an empty marked set: it computes the same reachability closure
as the worklist marker. -/
theorem mem_markRecTop_iff (m : Module) (pf : String → Bool) (f : Function)
    (j : Inst) :
    j ∈ markRecTop m pf f ↔
      ∃ c ∈ f.insts, is_critical m pf c = true ∧ ReachOp f c j := by
  have hu : unmarkedCount f [] < f.insts.length + 1 :=
    lt_of_le_of_lt (unmarkedCount_le f []) (Nat.lt_succ_self _)
  obtain ⟨g1, g2, g3, g4⟩ := markInstList_spec_aux f (f.insts.length + 1)
    (fun marked i hi _ => markInst_spec f (f.insts.length + 1) marked i hi
      (lt_of_le_of_lt (unmarkedCount_le f marked) (Nat.lt_succ_self _)))
    (critical_seeds m pf f) [] (critical_seeds_subset m pf f) hu
  constructor
  · intro hj
    rcases g3 j hj with h | ⟨w, hw, hr⟩
    · cases h
    · rcases (mem_critical_seeds m pf f w).mp hw with ⟨hwi, hwc⟩
      exact ⟨w, hwi, hwc, hr⟩
  · rintro ⟨c, hci, hcc, hr⟩
    have hc : c ∈ markRecTop m pf f :=
      g2 c ((mem_critical_seeds m pf f c).mpr ⟨hci, hcc⟩)
    have hclosed : ∀ x ∈ markRecTop m pf f, ∀ s ∈ succs f x,
        s ∈ markRecTop m pf f := by
      intro x hx s hs
      rcases g4 [] (fun j hj => by cases hj) x hx s hs with h | h
      · exact h
      · cases h
    exact reach_mem_of_closed hclosed hc hr

/-- Filtering by a predicate satisfied by the last element keeps the last
element last. -/
theorem getLast?_filter {α : Type} (p : α → Bool) (l : List α) (a : α)
    (h : l.getLast? = some a) (hp : p a = true) :
    (l.filter p).getLast? = some a := by
  rw [← List.head?_reverse] at h ⊢
  rw [← List.filter_reverse]
  cases hr : l.reverse with
  | nil => rw [hr] at h; cases h
  | cons x t =>
    rw [hr] at h
    have : x = a := by simpa using h
    subst this
    simp [List.filter_cons, hp]

/-- A filter by a predicate implied by p preserves the p-count. -/
theorem countP_filter_keep {α : Type} (p q : α → Bool) (l : List α)
    (himp : ∀ a, p a = true → q a = true) :
    (l.filter q).countP p = l.countP p := by
  rw [List.countP_filter]
  refine List.countP_congr ?_
  intro a _
  cases hpa : p a <;> simp [hpa, himp]

/-- On a non-empty terminated block, sweepBlock just filters by keepInst. -/
theorem sweepBlock_eq_filter {live : List Inst} {bb : BasicBlock}
    (hne : bb.insts ≠ []) (hterm : bb.is_terminated = true) :
    sweepBlock live bb = { bb with insts := bb.insts.filter (keepInst live) } := by
  have h1 : bb.insts.isEmpty = false := by simpa using hne
  simp [sweepBlock, h1, hterm]

/-- Claim C3: sweep never removes a terminator, even one absent from the
live set.  A non-empty terminated block stays non-empty, keeps the very
same last instruction (a terminator of the same kind as before), keeps its
exact terminator count (so a single terminator stays a single terminator),
and its swept form is a block of the swept function. -/
theorem sweep_preserves_terminators (live : List Inst) (f : Function)
    (bb : BasicBlock) (hmem : bb ∈ f.blocks) (hne : bb.insts ≠ [])
    (hterm : bb.is_terminated = true) :
    (sweepBlock live bb).insts ≠ [] ∧
    (sweepBlock live bb).insts.getLast? = bb.insts.getLast? ∧
    (sweepBlock live bb).is_terminated = true ∧
    (sweepBlock live bb).insts.countP Inst.isTerminator
      = bb.insts.countP Inst.isTerminator ∧
    sweepBlock live bb ∈ (sweep live f).1.blocks := by
  obtain ⟨t, ht⟩ : ∃ t, bb.insts.getLast? = some t := by
    cases hgl : bb.insts.getLast? with
    | none => rw [BasicBlock.is_terminated, hgl] at hterm; cases hterm
    | some t => exact ⟨t, rfl⟩
  have htt : t.isTerminator = true := by
    rw [BasicBlock.is_terminated, ht] at hterm; exact hterm
  have hkeep : keepInst live t = true := by simp [keepInst, htt]
  have heq := @sweepBlock_eq_filter live bb hne hterm
  have hlast : (sweepBlock live bb).insts.getLast? = some t := by
    rw [heq]; exact getLast?_filter _ _ _ ht hkeep
  refine ⟨?_, ?_, ?_, ?_, ?_⟩
  · intro hnil; rw [hnil] at hlast; cases hlast
  · rw [hlast, ht]
  · rw [BasicBlock.is_terminated, hlast]; exact htt
  · rw [heq]
    exact countP_filter_keep _ _ _ (fun a ha => by simp [keepInst, ha])
  · exact List.mem_map.mpr ⟨bb, hmem, rfl⟩

/-- Witness for sweep_preserves_terminators at a concrete block. -/
theorem sweep_preserves_terminators_witness :
    (sweepBlock [] exSweepBB).insts ≠ [] ∧
    (sweepBlock [] exSweepBB).insts.getLast? = exSweepBB.insts.getLast? ∧
    (sweepBlock [] exSweepBB).is_terminated = true ∧
    (sweepBlock [] exSweepBB).insts.countP Inst.isTerminator
      = exSweepBB.insts.countP Inst.isTerminator ∧
    sweepBlock [] exSweepBB ∈ (sweep [] exSweepFn).1.blocks :=
  sweep_preserves_terminators [] exSweepFn exSweepBB (by decide) (by decide)
    (by decide)

/-- Claim C8: a non-empty block without a terminator is left completely
unchanged by sweep (same block value, so every instruction untouched) and
is never deleted by clear_basic_blocks. -/
theorem malformed_block_untouched (live : List Inst) (f : Function)
    (bb : BasicBlock) (hmem : bb ∈ f.blocks) (hne : bb.insts ≠ [])
    (hterm : bb.is_terminated = false) :
    sweepBlock live bb = bb ∧
    bb ∈ (sweep live f).1.blocks ∧
    bb ∈ (clear_basic_blocks f).1.blocks := by
  have h1 : bb.insts.isEmpty = false := by simpa using hne
  have hsb : sweepBlock live bb = bb := by simp [sweepBlock, h1, hterm]
  refine ⟨hsb, ?_, ?_⟩
  · exact List.mem_map.mpr ⟨bb, hmem, hsb⟩
  · refine List.mem_filter.mpr ⟨hmem, ?_⟩
    simp [eligibleEmpty, h1]

/-- Witness for malformed_block_untouched at a concrete malformed block. -/
theorem malformed_block_untouched_witness :
    sweepBlock [] exBadBB = exBadBB ∧
    exBadBB ∈ (sweep [] exBadFn).1.blocks ∧
    exBadBB ∈ (clear_basic_blocks exBadFn).1.blocks :=
  malformed_block_untouched [] exBadFn exBadBB (by decide) (by decide)
    (by decide)

/-- Claim C6: clear_basic_blocks deletes exactly the predecessor-less,
non-entry, empty blocks, and returns true iff such a block exists. -/
theorem clear_basic_blocks_spec (f : Function) :
    (∀ bb, bb ∈ (clear_basic_blocks f).1.blocks ↔
        bb ∈ f.blocks ∧ ¬(bb.preds = [] ∧ bb.id ≠ f.entry ∧ bb.insts = [])) ∧
    ((clear_basic_blocks f).2 = true ↔
        ∃ bb ∈ f.blocks, bb.preds = [] ∧ bb.id ≠ f.entry ∧ bb.insts = []) := by
  have helig : ∀ bb : BasicBlock, eligibleEmpty f bb = true ↔
      (bb.preds = [] ∧ bb.id ≠ f.entry ∧ bb.insts = []) := by
    intro bb
    simp [eligibleEmpty, List.isEmpty_iff, and_assoc]
  constructor
  · intro bb
    show bb ∈ f.blocks.filter (fun b => !(eligibleEmpty f b)) ↔ _
    rw [List.mem_filter]
    constructor
    · rintro ⟨h1, h2⟩
      refine ⟨h1, ?_⟩
      rw [← helig bb]
      simp only [Bool.not_eq_true'] at h2
      simp [h2]
    · rintro ⟨h1, h2⟩
      rw [← helig bb] at h2
      exact ⟨h1, by simpa using h2⟩
  · show (!(f.blocks.filter (eligibleEmpty f)).isEmpty) = true ↔ _
    constructor
    · intro h
      have hne : f.blocks.filter (eligibleEmpty f) ≠ [] := by
        intro hnil
        rw [hnil] at h
        simp at h
      rcases List.exists_mem_of_ne_nil _ hne with ⟨bb, hbb⟩
      exact ⟨bb, (List.mem_filter.mp hbb).1,
        (helig bb).mp (List.mem_filter.mp hbb).2⟩
    · rintro ⟨bb, h1, h2⟩
      have hm : bb ∈ f.blocks.filter (eligibleEmpty f) :=
        List.mem_filter.mpr ⟨h1, (helig bb).mpr h2⟩
      cases hnil : f.blocks.filter (eligibleEmpty f) with
      | nil => rw [hnil] at hm; cases hm
      | cons x t => simp

end DCE

namespace DCE

/-- Claim C2: mark(Function*) computes exactly the set of instructions
that are critical or reachable from a critical instruction through the
operand relation restricted to instruction operands (succs resolves only
Value.inst operands, so constants, globals and parameters never
propagate liveness). -/
theorem mark_computes_live_closure (m : Module) (pf : String → Bool)
    (f : Function) (j : Inst) :
    j ∈ mark m pf f ↔
      ∃ c ∈ f.insts, is_critical m pf c = true ∧ ReachOp f c j :=
  mem_mark_iff m pf f j

/-- Claim C9: the iterative worklist marker and the recursive marker
applied from an empty marked set to each critical seed produce identical
live sets. -/
theorem mark_iterative_eq_recursive (m : Module) (pf : String → Bool)
    (f : Function) (j : Inst) :
    j ∈ mark m pf f ↔ j ∈ markRecTop m pf f := by
  rw [mem_mark_iff, mem_markRecTop_iff]

/-- Claim C4 counterexample: a call whose callee operand is not a
recognizable Function (here a constant) and whose use-list is empty is NOT
classified critical by is_critical, contrary to the claim that unresolved
call targets are treated like calls to declarations. -/
theorem unresolved_callee_not_critical_cex :
    exCallConst.kind = InstKind.call ∧
    exCallConst.operands.head? = some (Value.const 0) ∧
    is_critical exCallConstModule pfNone exCallConst = false := by decide

/-- The call-specific test succeeds exactly on a resolvable Function
callee that is a declaration or not reported pure. -/
theorem callee_critical_iff (pf : String → Bool) (ins : Inst) :
    callee_critical pf ins = true ↔
      ∃ n d, ins.operands.head? = some (Value.func n d) ∧
        (d = true ∨ pf n = false) := by
  unfold callee_critical
  cases h : ins.operands.head? with
  | none => simp
  | some v =>
    cases v with
    | inst j => simp
    | func n d =>
      simp only [Option.some.injEq, Value.func.injEq]
      constructor
      · intro hb
        rcases Bool.or_eq_true .. |>.mp hb with hb | hb
        · exact ⟨n, d, ⟨rfl, rfl⟩, Or.inl hb⟩
        · exact ⟨n, d, ⟨rfl, rfl⟩, Or.inr (by simpa using hb)⟩
      · rintro ⟨n', d', ⟨rfl, rfl⟩, hd | hd⟩
        · simp [hd]
        · simp [hd]
    | glob n => simp
    | const c => simp
    | param k => simp

/-- Claim C4 amended: for a call instruction, is_critical returns true iff
the callee operand resolves to a Function that is a declaration or not
reported pure, or the call itself has at least one recorded use; a call
through a non-Function operand falls through to the use-list rule. -/
theorem is_critical_call_characterization (m : Module) (pf : String → Bool)
    (ins : Inst) (h : ins.kind = InstKind.call) :
    is_critical m pf ins = true ↔
      ((∃ n d, ins.operands.head? = some (Value.func n d) ∧
          (d = true ∨ pf n = false))
        ∨ hasUses m ins = true) := by
  rw [← callee_critical_iff pf ins]
  rw [is_critical, h]
  cases hc : callee_critical pf ins <;> simp [hc]

/-- Witness for the amended C4 at a call to the declaration "input". -/
theorem is_critical_call_characterization_witness :
    is_critical exCallDeclModule pfNone exCallDecl = true :=
  (is_critical_call_characterization exCallDeclModule pfNone exCallDecl
    (by decide)).mpr (Or.inl ⟨"input", true, by decide, Or.inl rfl⟩)

/-- Claim C5: sweep_globally keeps exactly the functions that are used (by
the incoming module state) or named "main", and the globals that are used;
everything is decided against use-lists at invocation time, so a function
whose only caller dies in the same invocation survives until a later
invocation. -/
theorem sweep_globally_spec (m : Module) :
    (∀ f, f ∈ (sweep_globally m).functions ↔
        f ∈ m.functions ∧ (funcUsed m f.name = true ∨ f.name = "main")) ∧
    (∀ g, g ∈ (sweep_globally m).globals ↔
        g ∈ m.globals ∧ globUsed m g.name = true) := by
  constructor
  · intro f
    show f ∈ m.functions.filter _ ↔ _
    rw [List.mem_filter]
    constructor
    · rintro ⟨h1, h2⟩
      refine ⟨h1, ?_⟩
      simp only [Bool.not_eq_true', decide_eq_false_iff_not] at h2
      by_contra hcon
      push_neg at hcon
      apply h2
      refine List.mem_filter.mpr ⟨h1, ?_⟩
      have hu : funcUsed m f.name = false := by
        cases hfu : funcUsed m f.name
        · rfl
        · exact absurd hfu hcon.1
      simp [hu, hcon.2]
    · rintro ⟨h1, h2⟩
      refine ⟨h1, ?_⟩
      simp only [Bool.not_eq_true', decide_eq_false_iff_not]
      intro hmem
      have hp := (List.mem_filter.mp hmem).2
      rcases h2 with h2 | h2 <;> simp [h2] at hp
  · intro g
    show g ∈ m.globals.filter _ ↔ _
    rw [List.mem_filter]
    constructor
    · rintro ⟨h1, h2⟩
      refine ⟨h1, ?_⟩
      simp only [Bool.not_eq_true', decide_eq_false_iff_not] at h2
      cases hgu : globUsed m g.name
      · exfalso
        apply h2
        exact List.mem_filter.mpr ⟨h1, by simp [hgu]⟩
      · rfl
    · rintro ⟨h1, h2⟩
      refine ⟨h1, ?_⟩
      simp only [Bool.not_eq_true', decide_eq_false_iff_not]
      intro hmem
      have hp := (List.mem_filter.mp hmem).2
      simp [h2] at hp

end DCE

namespace DCE

/-- Length of a foldr of appended lists. -/
theorem length_foldrAppend {α β : Type} (g : α → List β) (l : List α) :
    (l.foldr (fun a acc => g a ++ acc) []).length
      = l.foldr (fun a n => (g a).length + n) 0 := by
  induction l with
  | nil => rfl
  | cons x t ih => simp [ih]

/-- Kept and deleted instructions of a block partition its instructions. -/
theorem sweepBlock_length (live : List Inst) (bb : BasicBlock) :
    (sweepBlock live bb).insts.length + (sweepBlockDel live bb).length
      = bb.insts.length := by
  cases h1 : bb.insts.isEmpty
  · cases h2 : bb.is_terminated
    · simp [sweepBlock, sweepBlockDel, h1, h2]
    · simp only [sweepBlock, sweepBlockDel, h1, h2, Bool.not_true,
        Bool.false_eq_true, if_false]
      exact length_filter_add_not (keepInst live) bb.insts
  · simp [sweepBlock, sweepBlockDel, h1]

/-- Fold form of sweepBlock_length over a block list. -/
theorem sweep_size_aux (live : List Inst) (bs : List BasicBlock) :
    ((bs.map (sweepBlock live)).foldr (fun bb a => bb.insts.length + a) 0)
      + (bs.foldr (fun bb n => (sweepBlockDel live bb).length + n) 0)
      = bs.foldr (fun bb a => bb.insts.length + a) 0 := by
  induction bs with
  | nil => rfl
  | cons x t ih =>
    simp only [List.map_cons, List.foldr_cons]
    have := sweepBlock_length live x
    omega

/-- sweep removes exactly as many instructions as it counts. -/
theorem sweep_size (live : List Inst) (f : Function) :
    (sweep live f).1.size + (sweep live f).2.2 = f.size := by
  show ({ f with blocks := f.blocks.map (sweepBlock live) } : Function).size
      + (waitDel live f).length = f.size
  unfold Function.size waitDel
  rw [length_foldrAppend]
  simp only [List.length_map]
  have := sweep_size_aux live f.blocks
  omega

/-- A sweep that reports a change erased at least one instruction. -/
theorem sweep_changed_pos {live : List Inst} {f : Function}
    (h : (sweep live f).2.1 = true) : 1 ≤ (sweep live f).2.2 := by
  have hne : waitDel live f ≠ [] := by
    have : (!(waitDel live f).isEmpty) = true := h
    simpa [List.isEmpty_iff] using this
  have : 0 < (waitDel live f).length := List.length_pos.mpr hne
  exact this

/-- A block whose removal batch is empty is swept to itself. -/
theorem sweepBlock_eq_of_del_nil {live : List Inst} {bb : BasicBlock}
    (h : sweepBlockDel live bb = []) : sweepBlock live bb = bb := by
  unfold sweepBlockDel at h
  unfold sweepBlock
  cases h1 : bb.insts.isEmpty
  · cases h2 : bb.is_terminated
    · simp [h1, h2]
    · simp only [h1, h2, Bool.not_true, Bool.false_eq_true, if_false] at h ⊢
      have hall : bb.insts.filter (keepInst live) = bb.insts := by
        rw [List.filter_eq_self]
        intro a ha
        have := List.filter_eq_nil_iff.mp h a ha
        simpa using this
      rw [hall]
  · simp [h1]

/-- An unchanged sweep returns the function unmodified and counts zero. -/
theorem sweep_nochange {live : List Inst} {f : Function}
    (h : (sweep live f).2.1 = false) :
    (sweep live f).1 = f ∧ (sweep live f).2.2 = 0 := by
  have hnil : waitDel live f = [] := by
    have : (!(waitDel live f).isEmpty) = false := h
    simpa [List.isEmpty_iff] using this
  have hall : ∀ bb ∈ f.blocks, sweepBlockDel live bb = [] :=
    (foldrAppend_eq_nil _ _).mp hnil
  constructor
  · show ({ f with blocks := f.blocks.map (sweepBlock live) } : Function) = f
    have hmap : f.blocks.map (sweepBlock live) = f.blocks := by
      have : f.blocks.map (sweepBlock live) = f.blocks.map id :=
        List.map_congr_left (fun bb hbb => sweepBlock_eq_of_del_nil (hall bb hbb))
      rw [this, List.map_id]
    rw [hmap]
  · show (waitDel live f).length = 0
    rw [hnil]; rfl

/-- An unchanged clear_basic_blocks returns the function unmodified. -/
theorem clear_nochange {f : Function}
    (h : (clear_basic_blocks f).2 = false) : (clear_basic_blocks f).1 = f := by
  have hnil : f.blocks.filter (eligibleEmpty f) = [] := by
    have : (!(f.blocks.filter (eligibleEmpty f)).isEmpty) = false := h
    simpa [List.isEmpty_iff] using this
  have hall : ∀ bb ∈ f.blocks, eligibleEmpty f bb = false := by
    intro bb hbb
    have := List.filter_eq_nil_iff.mp hnil bb hbb
    simpa using this
  show ({ f with blocks := f.blocks.filter (fun bb => !(eligibleEmpty f bb)) }
      : Function) = f
  have : f.blocks.filter (fun bb => !(eligibleEmpty f bb)) = f.blocks := by
    rw [List.filter_eq_self]
    intro a ha
    simp [hall a ha]
  rw [this]

/-- Filtering blocks can only shrink the function size. -/
theorem clear_size_aux (p : BasicBlock → Bool) (bs : List BasicBlock) :
    ((bs.filter (fun bb => !(p bb))).foldr (fun bb a => bb.insts.length + a) 0)
      + (bs.filter (fun bb => !(p bb))).length
      ≤ bs.foldr (fun bb a => bb.insts.length + a) 0 + bs.length := by
  induction bs with
  | nil => simp
  | cons x t ih => cases hp : p x <;> simp [List.filter_cons, hp] <;> omega

/-- Filtering out a present block strictly shrinks the function size. -/
theorem clear_size_lt_aux (p : BasicBlock → Bool) (bs : List BasicBlock)
    (bb : BasicBlock) (hmem : bb ∈ bs) (hp : p bb = true) :
    ((bs.filter (fun b => !(p b))).foldr (fun b a => b.insts.length + a) 0)
      + (bs.filter (fun b => !(p b))).length
      < bs.foldr (fun b a => b.insts.length + a) 0 + bs.length := by
  induction bs with
  | nil => cases hmem
  | cons x t ih =>
    rcases List.mem_cons.mp hmem with rfl | hmem'
    · have := clear_size_aux p t
      simp only [List.filter_cons, hp, Bool.not_true, Bool.false_eq_true,
        if_false, List.foldr_cons, List.length_cons]
      omega
    · have := ih hmem'
      cases hpx : p x <;>
        simp [List.filter_cons, hpx] <;> omega

/-- clear_basic_blocks never grows the function. -/
theorem clear_size_le (f : Function) :
    (clear_basic_blocks f).1.size ≤ f.size := by
  show ({ f with blocks := f.blocks.filter (fun bb => !(eligibleEmpty f bb)) }
      : Function).size ≤ f.size
  unfold Function.size
  exact clear_size_aux (eligibleEmpty f) f.blocks

/-- A clear_basic_blocks that reports a change strictly shrinks f. -/
theorem clear_changed_size {f : Function}
    (h : (clear_basic_blocks f).2 = true) :
    (clear_basic_blocks f).1.size < f.size := by
  have hne : f.blocks.filter (eligibleEmpty f) ≠ [] := by
    have : (!(f.blocks.filter (eligibleEmpty f)).isEmpty) = true := h
    simpa [List.isEmpty_iff] using this
  rcases List.exists_mem_of_ne_nil _ hne with ⟨bb, hbb⟩
  show ({ f with blocks := f.blocks.filter (fun bb => !(eligibleEmpty f bb)) }
      : Function).size < f.size
  unfold Function.size
  exact clear_size_lt_aux (eligibleEmpty f) f.blocks bb
    (List.mem_filter.mp hbb).1 (List.mem_filter.mp hbb).2

/-- sizeL distributes over append. -/
theorem sizeL_append (l1 l2 : List Function) :
    sizeL (l1 ++ l2) = sizeL l1 + sizeL l2 := by
  induction l1 with
  | nil => simp [sizeL]
  | cons x t ih =>
    show x.size + sizeL (t ++ l2) = x.size + sizeL t + sizeL l2
    rw [ih]; omega

end DCE

namespace DCE

/-- sizeL of a singleton. -/
theorem sizeL_singleton (f : Function) : sizeL [f] = f.size := by
  show f.size + 0 = f.size
  omega

/-- A true changed flag propagates through stepFns. -/
theorem stepFns_mono (pf : String → Bool) (g : List GlobalVariable) :
    ∀ todo done cnt, (stepFns pf g done todo true cnt).2.1 = true := by
  intro todo
  induction todo with
  | nil => intro done cnt; rfl
  | cons f rest ih =>
    intro done cnt
    rw [stepFns]
    split
    · exact ih _ _
    · simp only [Bool.true_or]
      exact ih _ _

/-- A false result flag forces a false input flag. -/
theorem stepFns_false_input {pf : String → Bool} {g : List GlobalVariable}
    {todo done : List Function} {ch : Bool} {cnt : Nat}
    (h : (stepFns pf g done todo ch cnt).2.1 = false) : ch = false := by
  cases hch : ch
  · rfl
  · rw [hch] at h
    rw [stepFns_mono pf g todo done cnt] at h
    cases h

/-- stepFns never grows the module, and a freshly raised changed flag
witnesses a strict shrink. -/
theorem stepFns_size (pf : String → Bool) (g : List GlobalVariable) :
    ∀ todo done (ch : Bool) cnt,
      sizeL (stepFns pf g done todo ch cnt).1 ≤ sizeL done + sizeL todo ∧
      ((stepFns pf g done todo ch cnt).2.1 = true →
        ch = true ∨
          sizeL (stepFns pf g done todo ch cnt).1 < sizeL done + sizeL todo) := by
  intro todo
  induction todo with
  | nil =>
    intro done ch cnt
    constructor
    · show sizeL done ≤ sizeL done + sizeL []
      simp [sizeL]
    · intro h
      exact Or.inl h
  | cons f rest ih =>
    intro done ch cnt
    rw [stepFns]
    have hcons : sizeL (f :: rest) = f.size + sizeL rest := rfl
    split
    · obtain ⟨ha, hb⟩ := ih (done ++ [f]) ch cnt
      have e1 : sizeL (done ++ [f]) = sizeL done + f.size := by
        rw [sizeL_append, sizeL_singleton]
      constructor
      · rw [e1] at ha; rw [hcons]; omega
      · intro h
        rcases hb h with h1 | h1
        · exact Or.inl h1
        · rw [e1] at h1; rw [hcons]; omega
    · have hsw := sweep_size (mark ⟨done ++ f :: rest, g⟩ pf f) f
      have hcl := clear_size_le (sweep (mark ⟨done ++ f :: rest, g⟩ pf f) f).1
      obtain ⟨ha, hb⟩ := ih
        (done ++ [(clear_basic_blocks
          (sweep (mark ⟨done ++ f :: rest, g⟩ pf f) f).1).1])
        (ch || (sweep (mark ⟨done ++ f :: rest, g⟩ pf f) f).2.1
            || (clear_basic_blocks
                  (sweep (mark ⟨done ++ f :: rest, g⟩ pf f) f).1).2)
        (cnt + (sweep (mark ⟨done ++ f :: rest, g⟩ pf f) f).2.2)
      have e1 : sizeL (done ++ [(clear_basic_blocks
          (sweep (mark ⟨done ++ f :: rest, g⟩ pf f) f).1).1])
          = sizeL done + ((clear_basic_blocks
              (sweep (mark ⟨done ++ f :: rest, g⟩ pf f) f).1).1).size := by
        rw [sizeL_append, sizeL_singleton]
      constructor
      · rw [e1] at ha; rw [hcons]; omega
      · intro h
        rcases hb h with h1 | h1
        · rcases Bool.or_eq_true .. |>.mp h1 with h2 | h2
          · rcases Bool.or_eq_true .. |>.mp h2 with h3 | h3
            · exact Or.inl h3
            · refine Or.inr ?_
              have hpos := sweep_changed_pos h3
              rw [e1] at ha; rw [hcons]; omega
          · refine Or.inr ?_
            have hlt := clear_changed_size h2
            rw [e1] at ha; rw [hcons]; omega
        · refine Or.inr ?_
          rw [e1] at h1; rw [hcons]; omega

/-- A changed step strictly shrinks the module. -/
theorem step_size {pf : String → Bool} {m : Module}
    (h : (step pf m).2.1 = true) : (step pf m).1.size < m.size := by
  obtain ⟨_, hb⟩ := stepFns_size pf m.globals m.functions [] false 0
  rcases hb h with h1 | h1
  · cases h1
  · show sizeL (stepFns pf m.globals [] m.functions false 0).1 < sizeL m.functions
    have : sizeL ([] : List Function) = 0 := rfl
    omega

/-- An unchanged stepFns run leaves every function and the count alone. -/
theorem stepFns_nochange (pf : String → Bool) (g : List GlobalVariable) :
    ∀ todo done cnt,
      (stepFns pf g done todo false cnt).2.1 = false →
      (stepFns pf g done todo false cnt).1 = done ++ todo ∧
      (stepFns pf g done todo false cnt).2.2 = cnt := by
  intro todo
  induction todo with
  | nil =>
    intro done cnt _
    exact ⟨by simp [stepFns], rfl⟩
  | cons f rest ih =>
    intro done cnt h
    by_cases hd : f.isDecl = true
    · have heq : stepFns pf g done (f :: rest) false cnt
          = stepFns pf g (done ++ [f]) rest false cnt := by
        rw [stepFns]; rw [if_pos hd]
      rw [heq] at h ⊢
      obtain ⟨h1, h2⟩ := ih (done ++ [f]) cnt h
      refine ⟨?_, h2⟩
      rw [h1]
      simp
    · have heq : stepFns pf g done (f :: rest) false cnt
          = stepFns pf g
              (done ++ [(clear_basic_blocks
                (sweep (mark ⟨done ++ f :: rest, g⟩ pf f) f).1).1])
              rest
              (false || (sweep (mark ⟨done ++ f :: rest, g⟩ pf f) f).2.1
                  || (clear_basic_blocks
                        (sweep (mark ⟨done ++ f :: rest, g⟩ pf f) f).1).2)
              (cnt + (sweep (mark ⟨done ++ f :: rest, g⟩ pf f) f).2.2) := by
        rw [stepFns]; rw [if_neg hd]
      rw [heq] at h ⊢
      have hfalse : (false || (sweep (mark ⟨done ++ f :: rest, g⟩ pf f) f).2.1
          || (clear_basic_blocks
                (sweep (mark ⟨done ++ f :: rest, g⟩ pf f) f).1).2) = false :=
        stepFns_false_input h
      have hsw : (sweep (mark ⟨done ++ f :: rest, g⟩ pf f) f).2.1 = false := by
        rcases Bool.or_eq_false_iff.mp hfalse with ⟨h1, _⟩
        exact (Bool.or_eq_false_iff.mp h1).2
      have hclb : (clear_basic_blocks
          (sweep (mark ⟨done ++ f :: rest, g⟩ pf f) f).1).2 = false :=
        (Bool.or_eq_false_iff.mp hfalse).2
      obtain ⟨hf1, hf2⟩ := sweep_nochange hsw
      have hcf : (clear_basic_blocks
          (sweep (mark ⟨done ++ f :: rest, g⟩ pf f) f).1).1 = f := by
        rw [clear_nochange hclb, hf1]
      rw [hfalse, hcf, hf2] at h ⊢
      obtain ⟨h1, h2⟩ := ih (done ++ [f]) (cnt + 0) h
      constructor
      · rw [h1]; simp
      · rw [h2]; omega

end DCE

namespace DCE

/-- In an unchanged stepFns run, every non-declaration function's sweep
(against the module state at its turn, which equals the full module)
reported no change. -/
theorem stepFns_sweep_false (pf : String → Bool) (g : List GlobalVariable) :
    ∀ todo done cnt,
      (stepFns pf g done todo false cnt).2.1 = false →
      ∀ f ∈ todo, f.isDecl = false →
        (sweep (mark ⟨done ++ todo, g⟩ pf f) f).2.1 = false := by
  intro todo
  induction todo with
  | nil => intro done cnt _ f hf; cases hf
  | cons f0 rest ih =>
    intro done cnt h f hf hdecl
    by_cases hd : f0.isDecl = true
    · have heq : stepFns pf g done (f0 :: rest) false cnt
          = stepFns pf g (done ++ [f0]) rest false cnt := by
        rw [stepFns, if_pos hd]
      rw [heq] at h
      rcases List.mem_cons.mp hf with rfl | hf'
      · rw [hdecl] at hd; cases hd
      · have := ih (done ++ [f0]) cnt h f hf' hdecl
        simpa [List.append_assoc] using this
    · have heq : stepFns pf g done (f0 :: rest) false cnt
          = stepFns pf g
              (done ++ [(clear_basic_blocks
                (sweep (mark ⟨done ++ f0 :: rest, g⟩ pf f0) f0).1).1])
              rest
              (false || (sweep (mark ⟨done ++ f0 :: rest, g⟩ pf f0) f0).2.1
                  || (clear_basic_blocks
                        (sweep (mark ⟨done ++ f0 :: rest, g⟩ pf f0) f0).1).2)
              (cnt + (sweep (mark ⟨done ++ f0 :: rest, g⟩ pf f0) f0).2.2) := by
        rw [stepFns, if_neg hd]
      rw [heq] at h
      have hfalse : (false
          || (sweep (mark ⟨done ++ f0 :: rest, g⟩ pf f0) f0).2.1
          || (clear_basic_blocks
                (sweep (mark ⟨done ++ f0 :: rest, g⟩ pf f0) f0).1).2) = false :=
        stepFns_false_input h
      have hsw : (sweep (mark ⟨done ++ f0 :: rest, g⟩ pf f0) f0).2.1 = false := by
        rcases Bool.or_eq_false_iff.mp hfalse with ⟨h1, _⟩
        exact (Bool.or_eq_false_iff.mp h1).2
      have hclb : (clear_basic_blocks
          (sweep (mark ⟨done ++ f0 :: rest, g⟩ pf f0) f0).1).2 = false :=
        (Bool.or_eq_false_iff.mp hfalse).2
      rcases List.mem_cons.mp hf with rfl | hf'
      · exact hsw
      · obtain ⟨hf1, hf2⟩ := sweep_nochange hsw
        have hcf : (clear_basic_blocks
            (sweep (mark ⟨done ++ f0 :: rest, g⟩ pf f0) f0).1).1 = f0 := by
          rw [clear_nochange hclb, hf1]
        rw [hfalse, hcf, hf2] at h
        have := ih (done ++ [f0]) (cnt + 0) h f hf' hdecl
        simpa [List.append_assoc] using this

/-- An unchanged step leaves the module intact and erases nothing. -/
theorem step_nochange {pf : String → Bool} {m : Module}
    (h : (step pf m).2.1 = false) :
    (step pf m).1 = m ∧ (step pf m).2.2 = 0 := by
  obtain ⟨h1, h2⟩ := stepFns_nochange pf m.globals m.functions [] 0 h
  constructor
  · show (⟨(stepFns pf m.globals [] m.functions false 0).1, m.globals⟩
        : Module) = m
    rw [h1]
    rfl
  · exact h2

/-- With fuel exceeding the module size, runAux lands on a step fixpoint. -/
theorem runAux_fix (pf : String → Bool) :
    ∀ fuel (m : Module) cnt, m.size < fuel →
      (step pf (runAux pf fuel m cnt).1).2.1 = false := by
  intro fuel
  induction fuel with
  | zero => intro m cnt h; omega
  | succ n ih =>
    intro m cnt h
    rw [runAux]
    cases hch : (step pf m).2.1
    · simp only [hch, Bool.false_eq_true, if_false]
      obtain ⟨hm, _⟩ := step_nochange hch
      show (step pf (step pf m).1).2.1 = false
      rw [hm]
      exact hch
    · simp only [hch, if_true]
      have hlt := step_size hch
      exact ih (step pf m).1 (cnt + (step pf m).2.2) (by omega)

/-- The module returned by run is a fixpoint of step. -/
theorem run_fix (pf : String → Bool) (m : Module) (cnt : Nat) :
    (step pf (run pf m cnt).1).2.1 = false :=
  runAux_fix pf (m.size + 1) m cnt (Nat.lt_succ_self _)

/-- Claim C7: running the fixpoint driver again on its own output returns
the very same module (zero blocks deleted) and erases zero further
instructions. -/
theorem run_idempotent (pf : String → Bool) (m : Module) :
    run pf (run pf m 0).1 0 = ((run pf m 0).1, 0) := by
  have hfix := run_fix pf m 0
  obtain ⟨hm, hc⟩ := step_nochange hfix
  show runAux pf ((run pf m 0).1.size + 1) (run pf m 0).1 0 = _
  rw [runAux]
  simp only [hfix, Bool.false_eq_true, if_false, hm, hc]

/-- runAux is additive in the incoming instruction counter. -/
theorem runAux_count (pf : String → Bool) :
    ∀ fuel (m : Module) cnt,
      (runAux pf fuel m cnt).2 = cnt + (runAux pf fuel m 0).2 := by
  intro fuel
  induction fuel with
  | zero => intro m cnt; show cnt = cnt + 0; omega
  | succ n ih =>
    intro m cnt
    rw [runAux, runAux]
    cases hch : (step pf m).2.1
    · simp only [hch, Bool.false_eq_true, if_false]
      show cnt + _ = cnt + (0 + _)
      omega
    · simp only [hch, if_true]
      rw [ih (step pf m).1 (cnt + (step pf m).2.2),
        ih (step pf m).1 (0 + (step pf m).2.2)]
      omega

/-- Claim C10: run never resets the erased-instruction counter, so the
total it reports is the incoming cumulative count plus this invocation's
erasures. -/
theorem run_count_cumulative (pf : String → Bool) (m : Module) (cnt : Nat) :
    (run pf m cnt).2 = cnt + (run pf m 0).2 :=
  runAux_count pf (m.size + 1) m cnt

/-- Claim C1 (amended): after run completes, every instruction lying in a
terminated block of a surviving non-declaration function is critical or
reachable along operand edges from a critical instruction of the same
function (criticality evaluated on the final module). -/
theorem run_sound_terminated (pf : String → Bool) (m : Module) :
    ∀ f ∈ (run pf m 0).1.functions, f.isDecl = false →
    ∀ bb ∈ f.blocks, bb.is_terminated = true →
    ∀ i ∈ bb.insts,
      ∃ c ∈ f.insts,
        is_critical (run pf m 0).1 pf c = true ∧ ReachOp f c i := by
  intro f hf hdecl bb hbb hterm i hi
  have hfix := run_fix pf m 0
  have hfix' : (stepFns pf (run pf m 0).1.globals []
      (run pf m 0).1.functions false 0).2.1 = false := hfix
  have hsw := stepFns_sweep_false pf (run pf m 0).1.globals
    (run pf m 0).1.functions [] 0 hfix' f hf hdecl
  have hsw' : (sweep (mark (run pf m 0).1 pf f) f).2.1 = false := hsw
  have hnil : waitDel (mark (run pf m 0).1 pf f) f = [] := by
    have : (!(waitDel (mark (run pf m 0).1 pf f) f).isEmpty) = false := hsw'
    simpa [List.isEmpty_iff] using this
  have hdel : sweepBlockDel (mark (run pf m 0).1 pf f) bb = [] :=
    (foldrAppend_eq_nil _ _).mp hnil bb hbb
  have hne : bb.insts.isEmpty = false := by
    cases hemp : bb.insts.isEmpty
    · rfl
    · exfalso
      have : bb.insts = [] := List.isEmpty_iff.mp hemp
      rw [BasicBlock.is_terminated, this] at hterm
      cases hterm
  have hfilter : bb.insts.filter
      (fun x => !(keepInst (mark (run pf m 0).1 pf f) x)) = [] := by
    simpa [sweepBlockDel, hne, hterm] using hdel
  have hk : keepInst (mark (run pf m 0).1 pf f) i = true := by
    have := List.filter_eq_nil_iff.mp hfilter i hi
    simpa using this
  rw [keepInst] at hk
  rcases Bool.or_eq_true .. |>.mp hk with hk | hk
  · exact ⟨i, (mem_insts f i).mpr ⟨bb, hbb, hi⟩,
      terminator_critical hk (run pf m 0).1 pf, ReachOp.refl i⟩
  · have hmem : i ∈ mark (run pf m 0).1 pf f := by simpa using hk
    exact (mem_mark_iff (run pf m 0).1 pf f i).mp hmem

/-- Witness for the amended C1 on a concrete fixpoint module. -/
theorem run_sound_terminated_witness :
    ∃ c ∈ exRetFn.insts,
      is_critical (run pfNone exRetModule 0).1 pfNone c = true ∧
      ReachOp exRetFn c exRetInst :=
  run_sound_terminated pfNone exRetModule exRetFn (by decide) (by decide)
    exRetBB (by decide) (by decide) exRetInst (by decide)

/-- Claim C1 counterexample: on a module whose only function consists of a
single malformed (unterminated) block holding one dead instruction, the
pass terminates leaving that instruction in place although no critical
instruction exists at all, refuting the unconditional soundness claim. -/
theorem run_sound_cex :
    ¬ (∀ f ∈ (run pfNone exBadModule 0).1.functions,
        ∀ bb ∈ f.blocks, ∀ i ∈ bb.insts,
          ∃ c ∈ f.insts,
            is_critical (run pfNone exBadModule 0).1 pfNone c = true ∧
            ReachOp f c i) := by
  intro h
  obtain ⟨c, hc, hcrit, -⟩ :=
    h exBadFn (by decide) exBadBB (by decide) exBadInst (by decide)
  have hc' : c = exBadInst := by
    have hx : c ∈ ([exBadInst] : List Inst) := hc
    simpa using hx
  subst hc'
  have : is_critical (run pfNone exBadModule 0).1 pfNone exBadInst = false := by
    decide
  rw [this] at hcrit
  cases hcrit

end DCE
